import Mathlib

/-!
Verification of the content-protection and share-link codec of the send-note
plugin (src/src/crypto.ts, src/src/api.ts, src/src/note.ts).

Strings of the host language (JavaScript) are modelled as lists of UTF-16 code
units (`List Nat`, each unit < 2^16), matching the semantics of `String.prototype.slice`,
`String.prototype.length` and the `TextEncoder` / `TextDecoder` platform codecs.
Byte buffers (`ArrayBuffer` / `Uint8Array`) are modelled as lists of bytes
(`List Nat`, each < 256).  AES-256-GCM (`window.crypto.subtle`) is modelled as an
ideal authenticated cipher: a structure `AEAD` whose laws state that decryption
inverts encryption under the same key and nonce and fails (authentication-tag
mismatch) under any other key.  Randomness (`crypto.getRandomValues`) and the
PBKDF2 derivation `_generateKey` are external to the embedded code: the derived
32-byte master key is passed to `encryptString` as an explicit parameter.
-/

/-- `Bytes l` states that `l` is a byte string: every element is < 256. -/
def Bytes (l : List Nat) : Prop := ∀ b ∈ l, b < 256

instance (l : List Nat) : Decidable (Bytes l) := List.decidableBAll _ l

/-- `JSString us` states that `us` is a well-typed JavaScript string:
every UTF-16 code unit is < 2^16. -/
def JSString (us : List Nat) : Prop := ∀ u ∈ us, u < 65536

instance (us : List Nat) : Decidable (JSString us) := List.decidableBAll _ us

/-- `jsStr` reads a Lean string literal as a list of UTF-16 code units.
(All literals used below are in the Basic Multilingual Plane, where the code
unit equals the code point, so `Char.toNat` is exact.) -/
def jsStr (s : String) : List Nat := s.toList.map Char.toNat

/-! ## Base64 codec

Model of the `arrayBufferToBase64` / `base64ToArrayBuffer` platform helpers
imported from `obsidian`: the standard base64 codec with `=` padding on encode
and padding characters ignored on decode. -/

/-- The standard base64 alphabet: digit value (0-63) to character code. -/
def b64chr (n : Nat) : Nat :=
  if n < 26 then 65 + n          -- the range A-Z
  else if n < 52 then 71 + n     -- the range a-z  (97 + (n - 26))
  else if n < 62 then n - 4      -- the range 0-9  (48 + (n - 52))
  else if n = 62 then 43         -- the character +
  else 47                        -- the character /

/-- The standard base64 alphabet: character code to digit value
(0 for characters outside the alphabet). -/
def b64val (c : Nat) : Nat :=
  if 65 ≤ c ∧ c ≤ 90 then c - 65
  else if 97 ≤ c ∧ c ≤ 122 then c - 71
  else if 48 ≤ c ∧ c ≤ 57 then c + 4
  else if c = 43 then 62
  else if c = 47 then 63
  else 0

/-- `isB64Char c` : `c` is a character code of the standard base64 alphabet
(`A`-`Z`, `a`-`z`, `0`-`9`, `+`, `/`; the padding character `=` is excluded). -/
def isB64Char (c : Nat) : Bool :=
  (65 ≤ c && c ≤ 90) || (97 ≤ c && c ≤ 122) || (48 ≤ c && c ≤ 57) || c == 43 || c == 47

/-- Standard base64 encoding of a byte string (with `=` padding),
modelling obsidian's `arrayBufferToBase64`. -/
def base64Encode : List Nat → List Nat
  | [] => []
  | [b1] => [b64chr (b1 / 4), b64chr (b1 % 4 * 16), 61, 61]
  | [b1, b2] => [b64chr (b1 / 4), b64chr (b1 % 4 * 16 + b2 / 16), b64chr (b2 % 16 * 4), 61]
  | b1 :: b2 :: b3 :: rest =>
      b64chr (b1 / 4) :: b64chr (b1 % 4 * 16 + b2 / 16) ::
      b64chr (b2 % 16 * 4 + b3 / 64) :: b64chr (b3 % 64) :: base64Encode rest

/-- Base64 decoding of a padding-stripped character sequence, four characters
(three bytes) at a time; a trailing group of two or three characters yields
one or two bytes, discarding the unused low bits of the final character. -/
def decodeQuads : List Nat → List Nat
  | c1 :: c2 :: c3 :: c4 :: rest =>
      (b64val c1 * 4 + b64val c2 / 16) ::
      (b64val c2 % 16 * 16 + b64val c3 / 4) ::
      (b64val c3 % 4 * 64 + b64val c4) :: decodeQuads rest
  | [c1, c2] => [b64val c1 * 4 + b64val c2 / 16]
  | [c1, c2, c3] =>
      [b64val c1 * 4 + b64val c2 / 16, b64val c2 % 16 * 16 + b64val c3 / 4]
  | _ => []

/-- Standard base64 decoding (padding characters ignored), modelling
obsidian's `base64ToArrayBuffer`. -/
def base64Decode (s : List Nat) : List Nat := decodeQuads (s.filter (· ≠ 61))

theorem b64chr_ne_pad (n : Nat) : b64chr n ≠ 61 := by
  unfold b64chr; split_ifs <;> omega

theorem b64chr_lt (n : Nat) : b64chr n < 256 := by
  unfold b64chr; split_ifs <;> omega

theorem b64val_lt (c : Nat) : b64val c < 64 := by
  unfold b64val; split_ifs <;> omega

theorem b64val_b64chr (n : Nat) (h : n < 64) : b64val (b64chr n) = n := by
  unfold b64chr b64val; split_ifs <;> omega

theorem isB64Char_b64chr (n : Nat) : isB64Char (b64chr n) = true := by
  simp only [isB64Char, Bool.or_eq_true, Bool.and_eq_true, decide_eq_true_eq, beq_iff_eq]
  unfold b64chr; split_ifs <;> omega

theorem b64chr_b64val (c : Nat) (h : isB64Char c = true) : b64chr (b64val c) = c := by
  simp only [isB64Char, Bool.or_eq_true, Bool.and_eq_true, decide_eq_true_eq, beq_iff_eq] at h
  unfold b64chr b64val; split_ifs <;> omega

theorem isB64Char_ne_pad (c : Nat) (h : isB64Char c = true) : c ≠ 61 := by
  simp only [isB64Char, Bool.or_eq_true, Bool.and_eq_true, decide_eq_true_eq, beq_iff_eq] at h
  omega

theorem filter_ne_pad_cons (c : Nat) (l : List Nat) (h : c ≠ 61) :
    (c :: l).filter (· ≠ 61) = c :: l.filter (· ≠ 61) := by
  simp [h]

/-- Base64 round trip: decoding the encoding of a byte string gives it back. -/
theorem base64Decode_base64Encode (l : List Nat) (h : Bytes l) :
    base64Decode (base64Encode l) = l := by
  induction l using base64Encode.induct with
  | case1 => rfl
  | case2 b1 =>
    have hb1 : b1 < 256 := h b1 (by simp)
    show decodeQuads ((base64Encode [b1]).filter (· ≠ 61)) = [b1]
    simp only [base64Encode]
    rw [filter_ne_pad_cons _ _ (b64chr_ne_pad _), filter_ne_pad_cons _ _ (b64chr_ne_pad _)]
    have hpad : ([61, 61] : List Nat).filter (· ≠ 61) = [] := by simp
    rw [hpad]
    simp only [decodeQuads]
    rw [b64val_b64chr _ (by omega), b64val_b64chr _ (by omega)]
    simp only [List.cons.injEq, and_true]
    omega
  | case3 b1 b2 =>
    have hb1 : b1 < 256 := h b1 (by simp)
    have hb2 : b2 < 256 := h b2 (by simp)
    show decodeQuads ((base64Encode [b1, b2]).filter (· ≠ 61)) = [b1, b2]
    simp only [base64Encode]
    rw [filter_ne_pad_cons _ _ (b64chr_ne_pad _), filter_ne_pad_cons _ _ (b64chr_ne_pad _),
      filter_ne_pad_cons _ _ (b64chr_ne_pad _)]
    have hpad : ([61] : List Nat).filter (· ≠ 61) = [] := by simp
    rw [hpad]
    simp only [decodeQuads]
    rw [b64val_b64chr _ (by omega), b64val_b64chr _ (by omega), b64val_b64chr _ (by omega)]
    simp only [List.cons.injEq, and_true]
    omega
  | case4 b1 b2 b3 rest ih =>
    have hb1 : b1 < 256 := h b1 (by simp)
    have hb2 : b2 < 256 := h b2 (by simp)
    have hb3 : b3 < 256 := h b3 (by simp)
    have hrest : Bytes rest := fun b hb => h b (by simp [hb])
    show decodeQuads ((base64Encode (b1 :: b2 :: b3 :: rest)).filter (· ≠ 61)) = b1 :: b2 :: b3 :: rest
    simp only [base64Encode]
    rw [filter_ne_pad_cons _ _ (b64chr_ne_pad _), filter_ne_pad_cons _ _ (b64chr_ne_pad _),
      filter_ne_pad_cons _ _ (b64chr_ne_pad _), filter_ne_pad_cons _ _ (b64chr_ne_pad _)]
    simp only [decodeQuads]
    rw [show decodeQuads ((base64Encode rest).filter (· ≠ 61)) = rest from ih hrest]
    rw [b64val_b64chr _ (by omega), b64val_b64chr _ (by omega), b64val_b64chr _ (by omega),
      b64val_b64chr _ (by omega)]
    simp only [List.cons.injEq, and_true]
    refine ⟨by omega, by omega, by omega⟩

theorem base64Encode_length (l : List Nat) :
    (base64Encode l).length = (l.length + 2) / 3 * 4 := by
  induction l using base64Encode.induct with
  | case1 => rfl
  | case2 b1 => simp only [base64Encode, List.length_cons, List.length_nil]
  | case3 b1 b2 => simp only [base64Encode, List.length_cons, List.length_nil]
  | case4 b1 b2 b3 rest ih =>
    simp only [base64Encode, List.length_cons, ih]
    omega

/-- Dropping the final padding character of the base64 encoding of a byte
string whose length is 2 mod 3 (such as a 32-byte key, encoded in 44
characters ending in one `=`) still decodes to the original bytes. -/
theorem base64Decode_take_base64Encode (l : List Nat) (h : Bytes l)
    (hlen : l.length % 3 = 2) :
    base64Decode ((base64Encode l).take (l.length / 3 * 4 + 3)) = l := by
  induction l using base64Encode.induct with
  | case1 => simp at hlen
  | case2 b1 => simp at hlen
  | case3 b1 b2 =>
    have hb1 : b1 < 256 := h b1 (by simp)
    have hb2 : b2 < 256 := h b2 (by simp)
    rw [show ([b1, b2] : List Nat).length / 3 * 4 + 3 = 3 from by norm_num]
    simp only [base64Encode, List.take_succ_cons, List.take_zero]
    show decodeQuads (List.filter _ _) = _
    rw [filter_ne_pad_cons _ _ (b64chr_ne_pad _), filter_ne_pad_cons _ _ (b64chr_ne_pad _),
      filter_ne_pad_cons _ _ (b64chr_ne_pad _)]
    simp only [List.filter_nil, decodeQuads]
    rw [b64val_b64chr _ (by omega), b64val_b64chr _ (by omega), b64val_b64chr _ (by omega)]
    simp only [List.cons.injEq, and_true]
    omega
  | case4 b1 b2 b3 rest ih =>
    have hb1 : b1 < 256 := h b1 (by simp)
    have hb2 : b2 < 256 := h b2 (by simp)
    have hb3 : b3 < 256 := h b3 (by simp)
    have hrest : Bytes rest := fun b hb => h b (by simp [hb])
    have hrlen : rest.length % 3 = 2 := by simp at hlen; omega
    have harith : (b1 :: b2 :: b3 :: rest).length / 3 * 4 + 3
        = (rest.length / 3 * 4 + 3) + 4 := by
      simp only [List.length_cons]; omega
    rw [harith]
    simp only [base64Encode]
    rw [show (rest.length / 3 * 4 + 3) + 4 = ((((rest.length / 3 * 4 + 3) + 1) + 1) + 1) + 1
      from by omega]
    simp only [List.take_succ_cons]
    show decodeQuads (List.filter _ _) = _
    rw [filter_ne_pad_cons _ _ (b64chr_ne_pad _), filter_ne_pad_cons _ _ (b64chr_ne_pad _),
      filter_ne_pad_cons _ _ (b64chr_ne_pad _), filter_ne_pad_cons _ _ (b64chr_ne_pad _)]
    simp only [decodeQuads]
    rw [show decodeQuads (((base64Encode rest).take (rest.length / 3 * 4 + 3)).filter (· ≠ 61))
        = rest from ih hrest hrlen]
    rw [b64val_b64chr _ (by omega), b64val_b64chr _ (by omega), b64val_b64chr _ (by omega),
      b64val_b64chr _ (by omega)]
    simp only [List.cons.injEq, and_true]
    refine ⟨by omega, by omega, by omega⟩

/-- All characters of the base64 encoding of a byte string whose length is
2 mod 3, with the final padding character dropped, lie in the base64
alphabet. -/
theorem base64Encode_take_alphabet (l : List Nat) (hlen : l.length % 3 = 2) :
    ((base64Encode l).take (l.length / 3 * 4 + 3)).all isB64Char = true := by
  induction l using base64Encode.induct with
  | case1 => simp at hlen
  | case2 b1 => simp at hlen
  | case3 b1 b2 =>
    rw [show ([b1, b2] : List Nat).length / 3 * 4 + 3 = 3 from by norm_num]
    simp only [base64Encode, List.take_succ_cons, List.take_zero, List.all_cons, List.all_nil,
      isB64Char_b64chr, Bool.and_self]
  | case4 b1 b2 b3 rest ih =>
    have hrlen : rest.length % 3 = 2 := by simp at hlen; omega
    have harith : (b1 :: b2 :: b3 :: rest).length / 3 * 4 + 3
        = (rest.length / 3 * 4 + 3) + 4 := by
      simp only [List.length_cons]; omega
    rw [harith]
    simp only [base64Encode]
    rw [show (rest.length / 3 * 4 + 3) + 4 = ((((rest.length / 3 * 4 + 3) + 1) + 1) + 1) + 1
      from by omega]
    simp only [List.take_succ_cons, List.all_cons, isB64Char_b64chr, Bool.true_and]
    exact ih hrlen

/-- Re-encoding the decoding of a canonical unpadded base64 string (length
3 mod 4, all characters in the alphabet, unused low bits of the last
character zero) restores it, with one padding character appended. -/
theorem base64Encode_base64Decode_canonical (k : List Nat)
    (halpha : k.all isB64Char = true) (hlen : k.length % 4 = 3)
    (hlast : ∀ c, k.getLast? = some c → b64val c % 4 = 0) :
    base64Encode (base64Decode k) = k ++ [61] := by
  induction k using decodeQuads.induct with
  | case1 c1 c2 c3 c4 rest ih =>
    simp only [List.all_cons, Bool.and_eq_true] at halpha
    obtain ⟨h1, h2, h3, h4, hrest⟩ := halpha
    have hrlen : rest.length % 4 = 3 := by simp at hlen; omega
    have hrne : rest ≠ [] := by intro he; rw [he] at hrlen; simp at hrlen
    obtain ⟨r, rs, rfl⟩ := List.exists_cons_of_ne_nil hrne
    have hlast' : ∀ c, (r :: rs).getLast? = some c → b64val c % 4 = 0 := by
      intro c hc
      exact hlast c (by simpa [List.getLast?_cons_cons] using hc)
    have hfilter : ∀ m : List Nat, m.all isB64Char = true → m.filter (· ≠ 61) = m := by
      intro m hm
      rw [List.filter_eq_self]
      intro a ha
      have := isB64Char_ne_pad a (by rw [List.all_eq_true] at hm; exact hm a ha)
      simpa using this
    show base64Encode (decodeQuads (List.filter _ _)) = _
    rw [hfilter _ (by simp [h1, h2, h3, h4, hrest])]
    simp only [decodeQuads]
    have hv1 := b64val_lt c1
    have hv2 := b64val_lt c2
    have hv3 := b64val_lt c3
    have hv4 := b64val_lt c4
    have hshape : decodeQuads (r :: rs) ≠ [] ∨ True := Or.inr trivial
    -- encode the three recovered bytes, then the rest by the induction hypothesis
    have ihr : base64Encode (base64Decode (r :: rs)) = (r :: rs) ++ [61] :=
      ih hrest hrlen hlast'
    rw [show base64Decode (r :: rs) = decodeQuads (r :: rs) from by
      show decodeQuads (List.filter _ _) = _
      rw [hfilter _ hrest]] at ihr
    -- the cons-3 equation of base64Encode applies whatever the tail is
    rw [show base64Encode ((b64val c1 * 4 + b64val c2 / 16) ::
          (b64val c2 % 16 * 16 + b64val c3 / 4) ::
          (b64val c3 % 4 * 64 + b64val c4) :: decodeQuads (r :: rs))
        = b64chr ((b64val c1 * 4 + b64val c2 / 16) / 4) ::
          b64chr ((b64val c1 * 4 + b64val c2 / 16) % 4 * 16 + (b64val c2 % 16 * 16 + b64val c3 / 4) / 16) ::
          b64chr ((b64val c2 % 16 * 16 + b64val c3 / 4) % 16 * 4 + (b64val c3 % 4 * 64 + b64val c4) / 64) ::
          b64chr ((b64val c3 % 4 * 64 + b64val c4) % 64) :: base64Encode (decodeQuads (r :: rs))
      from by simp only [base64Encode]]
    rw [ihr]
    have e1 : (b64val c1 * 4 + b64val c2 / 16) / 4 = b64val c1 := by omega
    have e2 : (b64val c1 * 4 + b64val c2 / 16) % 4 * 16 + (b64val c2 % 16 * 16 + b64val c3 / 4) / 16
        = b64val c2 := by omega
    have e3 : (b64val c2 % 16 * 16 + b64val c3 / 4) % 16 * 4 + (b64val c3 % 4 * 64 + b64val c4) / 64
        = b64val c3 := by omega
    have e4 : (b64val c3 % 4 * 64 + b64val c4) % 64 = b64val c4 := by omega
    rw [e1, e2, e3, e4, b64chr_b64val _ h1, b64chr_b64val _ h2, b64chr_b64val _ h3,
      b64chr_b64val _ h4]
    simp
  | case2 c1 c2 => simp at hlen
  | case3 c1 c2 c3 =>
    simp only [List.all_cons, Bool.and_eq_true] at halpha
    obtain ⟨h1, h2, h3, -⟩ := halpha
    have hl3 : b64val c3 % 4 = 0 := hlast c3 (by simp [List.getLast?_cons_cons])
    have hfilter : ([c1, c2, c3] : List Nat).filter (· ≠ 61) = [c1, c2, c3] := by
      rw [List.filter_eq_self]
      intro a ha
      simp only [List.mem_cons, List.not_mem_nil, or_false] at ha
      rcases ha with rfl | rfl | rfl
      · simpa using isB64Char_ne_pad _ h1
      · simpa using isB64Char_ne_pad _ h2
      · simpa using isB64Char_ne_pad _ h3
    show base64Encode (decodeQuads (List.filter _ _)) = _
    rw [hfilter]
    simp only [decodeQuads]
    have hv1 := b64val_lt c1
    have hv2 := b64val_lt c2
    have hv3 := b64val_lt c3
    simp only [base64Encode]
    have e1 : (b64val c1 * 4 + b64val c2 / 16) / 4 = b64val c1 := by omega
    have e2 : (b64val c1 * 4 + b64val c2 / 16) % 4 * 16 + (b64val c2 % 16 * 16 + b64val c3 / 4) / 16
        = b64val c2 := by omega
    have e3 : (b64val c2 % 16 * 16 + b64val c3 / 4) % 16 * 4 = b64val c3 := by omega
    rw [e1, e2, e3, b64chr_b64val _ h1, b64chr_b64val _ h2, b64chr_b64val _ h3]
    simp
  | case4 t hx1 hx2 hx3 =>
    exfalso
    rcases t with _ | ⟨a, _ | ⟨b, _ | ⟨c, _ | ⟨d, t'⟩⟩⟩⟩
    · simp at hlen
    · simp at hlen
    · simp at hlen
    · exact hx3 a b c rfl
    · exact hx1 a b c d t' rfl

/-! ## UTF-16 / UTF-8 codecs

Model of the `TextEncoder` / `TextDecoder` platform codecs used by
`encryptString` / `decryptString`.  A JavaScript string is a sequence of UTF-16
code units; `TextEncoder.encode` converts it to Unicode scalar values (turning
every unpaired surrogate into U+FFFD, per the WHATWG encoding standard) and
then serialises each scalar value as 1-4 UTF-8 bytes. -/

/-- Convert a UTF-16 code-unit sequence to Unicode scalar values; a surrogate
pair combines into one supplementary scalar, an unpaired surrogate becomes
U+FFFD (65533). -/
def utf16Decode : List Nat → List Nat
  | [] => []
  | [u] => if 55296 ≤ u ∧ u < 57344 then [65533] else [u]
  | u :: v :: rest =>
    if 55296 ≤ u ∧ u < 56320 then
      if 56320 ≤ v ∧ v < 57344 then
        (65536 + (u - 55296) * 1024 + (v - 56320)) :: utf16Decode rest
      else 65533 :: utf16Decode (v :: rest)
    else if 56320 ≤ u ∧ u < 57344 then 65533 :: utf16Decode (v :: rest)
    else u :: utf16Decode (v :: rest)

/-- UTF-8 serialisation of one Unicode scalar value (1-4 bytes). -/
def utf8EncodeChar (c : Nat) : List Nat :=
  if c < 128 then [c]
  else if c < 2048 then [192 + c / 64, 128 + c % 64]
  else if c < 65536 then [224 + c / 4096, 128 + c / 64 % 64, 128 + c % 64]
  else [240 + c / 262144, 128 + c / 4096 % 64, 128 + c / 64 % 64, 128 + c % 64]

/-- UTF-8 serialisation of a scalar-value sequence. -/
def utf8Encode (cs : List Nat) : List Nat := cs.foldr (fun c acc => utf8EncodeChar c ++ acc) []

/-- `TextEncoder.encode`: UTF-16 code units to UTF-8 bytes. -/
def textEncode (us : List Nat) : List Nat := utf8Encode (utf16Decode us)

/-- One step of UTF-8 deserialisation: given the leading byte and the
remaining bytes, produce one scalar value and the bytes left over (a missing
continuation byte is represented by the out-of-range sentinel 256, which
fails every continuation test). -/
def utf8Step (b1 : Nat) (rest : List Nat) : Nat × List Nat :=
  if b1 < 128 then (b1, rest)
  else if 192 ≤ b1 ∧ b1 < 224 then
    if 128 ≤ rest.headD 256 ∧ rest.headD 256 < 192 then
      ((b1 - 192) * 64 + (rest.headD 256 - 128), rest.tail)
    else (65533, rest.tail)
  else if 224 ≤ b1 ∧ b1 < 240 then
    if (128 ≤ rest.headD 256 ∧ rest.headD 256 < 192)
        ∧ (128 ≤ rest.tail.headD 256 ∧ rest.tail.headD 256 < 192) then
      ((b1 - 224) * 4096 + (rest.headD 256 - 128) * 64 + (rest.tail.headD 256 - 128),
        rest.tail.tail)
    else (65533, rest.tail.tail)
  else if 240 ≤ b1 ∧ b1 < 248 then
    if (128 ≤ rest.headD 256 ∧ rest.headD 256 < 192)
        ∧ (128 ≤ rest.tail.headD 256 ∧ rest.tail.headD 256 < 192)
        ∧ (128 ≤ rest.tail.tail.headD 256 ∧ rest.tail.tail.headD 256 < 192) then
      ((b1 - 240) * 262144 + (rest.headD 256 - 128) * 4096
          + (rest.tail.headD 256 - 128) * 64 + (rest.tail.tail.headD 256 - 128),
        rest.tail.tail.tail)
    else (65533, rest.tail.tail.tail)
  else (65533, rest)

/-- UTF-8 deserialisation, driven by a fuel counter for structural recursion
(each step consumes at least one byte, so `length` is always enough fuel). -/
def utf8DecodeAux : Nat → List Nat → List Nat
  | _, [] => []
  | 0, _ :: _ => []
  | fuel + 1, b1 :: rest => (utf8Step b1 rest).1 :: utf8DecodeAux fuel (utf8Step b1 rest).2

/-- UTF-8 deserialisation to scalar values.  Agrees with `TextDecoder` for
`utf-8` on all valid UTF-8 input — the only input it receives in this
development; on invalid input it emits U+FFFD with a simplified
resynchronisation. -/
def utf8Decode (bs : List Nat) : List Nat := utf8DecodeAux bs.length bs

/-- UTF-16 serialisation of one scalar value: itself if in the BMP, otherwise
a surrogate pair. -/
def utf16EncodeChar (c : Nat) : List Nat :=
  if c < 65536 then [c] else [55296 + (c - 65536) / 1024, 56320 + (c - 65536) % 1024]

/-- UTF-16 serialisation of a scalar-value sequence. -/
def utf16Encode (cs : List Nat) : List Nat := cs.foldr (fun c acc => utf16EncodeChar c ++ acc) []

/-- `TextDecoder.decode`: UTF-8 bytes to UTF-16 code units. -/
def textDecode (bs : List Nat) : List Nat := utf16Encode (utf8Decode bs)

/-- A UTF-16 code-unit sequence is well formed when it contains no unpaired
surrogate: every high surrogate is immediately followed by a low surrogate and
no low surrogate appears on its own. -/
def wellFormedUtf16 : List Nat → Bool
  | [] => true
  | [u] => !(decide (55296 ≤ u) && decide (u < 57344))
  | u :: v :: rest =>
    if 55296 ≤ u ∧ u < 56320 then
      (decide (56320 ≤ v) && decide (v < 57344)) && wellFormedUtf16 rest
    else (!(decide (56320 ≤ u) && decide (u < 57344))) && wellFormedUtf16 (v :: rest)


theorem utf8Step_length_le (b1 : Nat) (rest : List Nat) :
    (utf8Step b1 rest).2.length ≤ rest.length := by
  unfold utf8Step
  split_ifs <;> simp [List.length_tail] <;> omega

theorem utf8DecodeAux_irrel (fuel : Nat) : ∀ (fuel' : Nat) (bs : List Nat),
    bs.length ≤ fuel → bs.length ≤ fuel' → utf8DecodeAux fuel bs = utf8DecodeAux fuel' bs := by
  induction fuel with
  | zero =>
    intro fuel' bs h h'
    cases bs with
    | nil => cases fuel' <;> rfl
    | cons b1 rest => simp at h
  | succ n ih =>
    intro fuel' bs h h'
    cases bs with
    | nil => cases fuel' <;> rfl
    | cons b1 rest =>
      cases fuel' with
      | zero => simp at h'
      | succ m =>
        simp only [utf8DecodeAux]
        have hlen := utf8Step_length_le b1 rest
        have hlb : (utf8Step b1 rest).2.length ≤ n := by
          simp only [List.length_cons] at h; omega
        have hlb' : (utf8Step b1 rest).2.length ≤ m := by
          simp only [List.length_cons] at h'; omega
        rw [ih m (utf8Step b1 rest).2 hlb hlb']

/-- The master step equation of the UTF-8 decoder. -/
theorem utf8Decode_cons (b1 : Nat) (rest : List Nat) :
    utf8Decode (b1 :: rest) = (utf8Step b1 rest).1 :: utf8Decode (utf8Step b1 rest).2 := by
  show utf8DecodeAux (b1 :: rest).length (b1 :: rest) = _
  simp only [List.length_cons, utf8DecodeAux]
  rw [utf8DecodeAux_irrel rest.length (utf8Step b1 rest).2.length (utf8Step b1 rest).2
    (utf8Step_length_le b1 rest) (Nat.le_refl _)]
  rfl

theorem utf16Decode_lt (us : List Nat) (h : JSString us) :
    ∀ c ∈ utf16Decode us, c < 1114112 := by
  induction us using utf16Decode.induct with
  | case1 => intro c hc; rw [utf16Decode.eq_1] at hc; simp at hc
  | case2 u hu =>
    intro c hc
    rw [utf16Decode.eq_2, if_pos hu, List.mem_singleton] at hc
    omega
  | case3 u hu =>
    intro c hc
    have hu' := h u (List.mem_cons_self u [])
    rw [utf16Decode.eq_2, if_neg hu, List.mem_singleton] at hc
    omega
  | case4 u v rest h1 h2 ih =>
    intro c hc
    have hrest : JSString rest := fun x hx =>
      h x (List.mem_cons_of_mem u (List.mem_cons_of_mem v hx))
    rw [utf16Decode.eq_3, if_pos h1, if_pos h2, List.mem_cons] at hc
    cases hc with
    | inl h' => omega
    | inr h' => exact ih hrest c h'
  | case5 u v rest h1 h2 ih =>
    intro c hc
    have hrest : JSString (v :: rest) := fun x hx => h x (List.mem_cons_of_mem u hx)
    rw [utf16Decode.eq_3, if_pos h1, if_neg h2, List.mem_cons] at hc
    cases hc with
    | inl h' => omega
    | inr h' => exact ih hrest c h'
  | case6 u v rest h1 h2 ih =>
    intro c hc
    have hrest : JSString (v :: rest) := fun x hx => h x (List.mem_cons_of_mem u hx)
    rw [utf16Decode.eq_3, if_neg h1, if_pos h2, List.mem_cons] at hc
    cases hc with
    | inl h' => omega
    | inr h' => exact ih hrest c h'
  | case7 u v rest h1 h2 ih =>
    intro c hc
    have hrest : JSString (v :: rest) := fun x hx => h x (List.mem_cons_of_mem u hx)
    have hu : u < 65536 := h u (List.mem_cons_self u _)
    rw [utf16Decode.eq_3, if_neg h1, if_neg h2, List.mem_cons] at hc
    cases hc with
    | inl h' => omega
    | inr h' => exact ih hrest c h'

theorem utf8EncodeChar_lt (c : Nat) (h : c < 1114112) : ∀ b ∈ utf8EncodeChar c, b < 256 := by
  unfold utf8EncodeChar
  split_ifs with h1 h2 h3 <;> intro b hb <;>
    simp only [List.mem_cons, List.not_mem_nil, or_false] at hb
  · omega
  · rcases hb with rfl | rfl <;> omega
  · rcases hb with rfl | rfl | rfl <;> omega
  · rcases hb with rfl | rfl | rfl | rfl <;> omega

theorem utf8Encode_lt (cs : List Nat) (h : ∀ c ∈ cs, c < 1114112) : Bytes (utf8Encode cs) := by
  induction cs with
  | nil => intro b hb; simp [utf8Encode] at hb
  | cons c t ih =>
    intro b hb
    have e : utf8Encode (c :: t) = utf8EncodeChar c ++ utf8Encode t := rfl
    rw [e, List.mem_append] at hb
    rcases hb with hb | hb
    · exact utf8EncodeChar_lt c (h c (List.mem_cons_self c t)) b hb
    · exact ih (fun x hx => h x (List.mem_cons_of_mem c hx)) b hb

/-- The byte string produced by `TextEncoder.encode` on a well-typed
JavaScript string consists of bytes. -/
theorem textEncode_bytes (us : List Nat) (h : JSString us) : Bytes (textEncode us) :=
  utf8Encode_lt _ (utf16Decode_lt us h)

theorem utf8Decode_encodeChar (c : Nat) (h : c < 1114112) (bs : List Nat) :
    utf8Decode (utf8EncodeChar c ++ bs) = c :: utf8Decode bs := by
  by_cases h1 : c < 128
  · rw [show utf8EncodeChar c = [c] from by simp [utf8EncodeChar, h1]]
    simp only [List.cons_append, List.nil_append]
    rw [utf8Decode_cons, show utf8Step c bs = (c, bs) from by unfold utf8Step; rw [if_pos h1]]
  · by_cases h2 : c < 2048
    · rw [show utf8EncodeChar c = [192 + c / 64, 128 + c % 64] from by
        simp [utf8EncodeChar, h1, h2]]
      simp only [List.cons_append, List.nil_append]
      rw [utf8Decode_cons]
      have hstep : utf8Step (192 + c / 64) ((128 + c % 64) :: bs) = (c, bs) := by
        unfold utf8Step
        simp only [List.headD_cons, List.tail_cons]
        rw [if_neg (by omega), if_pos (by omega), if_pos (by constructor <;> omega)]
        simp only [Prod.mk.injEq]
        exact ⟨by omega, trivial⟩
      rw [hstep]
    · by_cases h3 : c < 65536
      · rw [show utf8EncodeChar c = [224 + c / 4096, 128 + c / 64 % 64, 128 + c % 64] from by
          simp [utf8EncodeChar, h1, h2, h3]]
        simp only [List.cons_append, List.nil_append]
        rw [utf8Decode_cons]
        have hstep : utf8Step (224 + c / 4096) ((128 + c / 64 % 64) :: (128 + c % 64) :: bs)
            = (c, bs) := by
          unfold utf8Step
          simp only [List.headD_cons, List.tail_cons]
          rw [if_neg (by omega), if_neg (by omega), if_pos (by omega),
            if_pos (by refine ⟨⟨by omega, by omega⟩, by omega, by omega⟩)]
          simp only [Prod.mk.injEq]
          exact ⟨by omega, trivial⟩
        rw [hstep]
      · rw [show utf8EncodeChar c
            = [240 + c / 262144, 128 + c / 4096 % 64, 128 + c / 64 % 64, 128 + c % 64] from by
          simp [utf8EncodeChar, h1, h2, h3]]
        simp only [List.cons_append, List.nil_append]
        rw [utf8Decode_cons]
        have hstep : utf8Step (240 + c / 262144)
            ((128 + c / 4096 % 64) :: (128 + c / 64 % 64) :: (128 + c % 64) :: bs) = (c, bs) := by
          unfold utf8Step
          simp only [List.headD_cons, List.tail_cons]
          rw [if_neg (by omega), if_neg (by omega), if_neg (by omega), if_pos (by omega),
            if_pos (by refine ⟨⟨by omega, by omega⟩, ⟨by omega, by omega⟩, by omega, by omega⟩)]
          simp only [Prod.mk.injEq]
          exact ⟨by omega, trivial⟩
        rw [hstep]

/-- UTF-8 round trip on scalar values below 0x110000. -/
theorem utf8Decode_utf8Encode (cs : List Nat) (h : ∀ c ∈ cs, c < 1114112) :
    utf8Decode (utf8Encode cs) = cs := by
  induction cs with
  | nil => rfl
  | cons c t ih =>
    have hc := h c (List.mem_cons_self c t)
    have ht : ∀ x ∈ t, x < 1114112 := fun x hx => h x (List.mem_cons_of_mem c hx)
    have e : utf8Encode (c :: t) = utf8EncodeChar c ++ utf8Encode t := rfl
    rw [e, utf8Decode_encodeChar c hc, ih ht]

theorem utf16Encode_cons (c : Nat) (t : List Nat) :
    utf16Encode (c :: t) = utf16EncodeChar c ++ utf16Encode t := rfl

/-- UTF-16 round trip: re-encoding the scalar values of a well-formed
code-unit sequence gives back the sequence. -/
theorem utf16Encode_utf16Decode (us : List Nat) (h : JSString us)
    (hwf : wellFormedUtf16 us = true) : utf16Encode (utf16Decode us) = us := by
  induction us using utf16Decode.induct with
  | case1 => rfl
  | case2 u hu =>
    exfalso
    rw [wellFormedUtf16.eq_2] at hwf
    simp only [Bool.not_eq_true', Bool.and_eq_false_iff, decide_eq_false_iff_not] at hwf
    omega
  | case3 u hu =>
    have hu' : u < 65536 := h u (List.mem_cons_self u [])
    rw [utf16Decode.eq_2, if_neg hu, utf16Encode_cons]
    rw [show utf16EncodeChar u = [u] from by unfold utf16EncodeChar; rw [if_pos hu']]
    rfl
  | case4 u v rest h1 h2 ih =>
    have hrest : JSString rest := fun x hx =>
      h x (List.mem_cons_of_mem u (List.mem_cons_of_mem v hx))
    have hwfr : wellFormedUtf16 rest = true := by
      rw [wellFormedUtf16.eq_3, if_pos h1] at hwf
      simp only [Bool.and_eq_true] at hwf
      exact hwf.2
    rw [utf16Decode.eq_3, if_pos h1, if_pos h2, utf16Encode_cons, ih hrest hwfr]
    rw [show utf16EncodeChar (65536 + (u - 55296) * 1024 + (v - 56320)) = [u, v] from by
      unfold utf16EncodeChar
      rw [if_neg (by omega)]
      simp only [List.cons.injEq, and_true]
      exact ⟨by omega, by omega⟩]
    rfl
  | case5 u v rest h1 h2 ih =>
    exfalso
    rw [wellFormedUtf16.eq_3, if_pos h1] at hwf
    simp only [Bool.and_eq_true, decide_eq_true_eq] at hwf
    exact h2 ⟨hwf.1.1, hwf.1.2⟩
  | case6 u v rest h1 h2 ih =>
    exfalso
    rw [wellFormedUtf16.eq_3, if_neg h1] at hwf
    simp only [Bool.and_eq_true, Bool.not_eq_true', Bool.and_eq_false_iff,
      decide_eq_false_iff_not] at hwf
    rcases hwf.1 with hx | hx <;> omega
  | case7 u v rest h1 h2 ih =>
    have hrest : JSString (v :: rest) := fun x hx => h x (List.mem_cons_of_mem u hx)
    have hu : u < 65536 := h u (List.mem_cons_self u _)
    have hwfr : wellFormedUtf16 (v :: rest) = true := by
      rw [wellFormedUtf16.eq_3, if_neg h1] at hwf
      simp only [Bool.and_eq_true] at hwf
      exact hwf.2
    rw [utf16Decode.eq_3, if_neg h1, if_neg h2, utf16Encode_cons, ih hrest hwfr]
    rw [show utf16EncodeChar u = [u] from by unfold utf16EncodeChar; rw [if_pos hu]]
    rfl

/-- `TextDecoder` inverts `TextEncoder` on every well-typed, well-formed
JavaScript string. -/
theorem textDecode_textEncode (us : List Nat) (h : JSString us)
    (hwf : wellFormedUtf16 us = true) : textDecode (textEncode us) = us := by
  unfold textDecode textEncode
  rw [utf8Decode_utf8Encode _ (utf16Decode_lt us h), utf16Encode_utf16Decode us h hwf]

/-! ## Ideal authenticated cipher

`window.crypto.subtle.encrypt` / `decrypt` with AES-256-GCM are modelled by a
structure packaging an encryption function, a decryption function, and the
laws of an ideal authenticated cipher: decryption under the key and nonce used
for encryption recovers the plaintext, and decryption under any other key
fails (the authentication-tag check rejects).  All theorems below hold for
every cipher with these laws; `modelCipher` is one computable instance used
for concrete evaluation. -/

structure AEAD where
  enc : List Nat → List Nat → List Nat → List Nat
  dec : List Nat → List Nat → List Nat → Option (List Nat)
  dec_enc : ∀ k iv pt, Bytes k → Bytes iv → dec k iv (enc k iv pt) = some pt
  dec_wrong_key : ∀ k k' iv pt, Bytes k → Bytes iv → k' ≠ k → dec k' iv (enc k iv pt) = none
  enc_bytes : ∀ k iv pt, Bytes k → Bytes iv → Bytes pt → Bytes (enc k iv pt)

/-- Byte-stuffing: escape 255 as 255 255, so that 255 0 can delimit. -/
def escBytes : List Nat → List Nat
  | [] => []
  | b :: t => if b = 255 then 255 :: 255 :: escBytes t else b :: escBytes t

/-- Inverse of `escBytes` up to the 255 0 delimiter: returns the unescaped
prefix and the remainder after the delimiter. -/
def unescBytes : List Nat → Option (List Nat × List Nat)
  | 255 :: 0 :: rest => some ([], rest)
  | 255 :: 255 :: rest => (unescBytes rest).map fun p => (255 :: p.1, p.2)
  | 255 :: _ => none
  | b :: rest => (unescBytes rest).map fun p => (b :: p.1, p.2)
  | [] => none

theorem unescBytes_escBytes (l : List Nat) (h : Bytes l) : ∀ r : List Nat,
    unescBytes (escBytes l ++ 255 :: 0 :: r) = some (l, r) := by
  induction l with
  | nil =>
    intro r
    rw [escBytes.eq_1, List.nil_append, unescBytes.eq_1]
  | cons b t ih =>
    intro r
    have ht : Bytes t := fun x hx => h x (List.mem_cons_of_mem b hx)
    by_cases hb255 : b = 255
    · subst hb255
      rw [escBytes.eq_2, if_pos rfl, List.cons_append, List.cons_append, unescBytes.eq_2,
        ih ht r]
      rfl
    · rw [escBytes.eq_2, if_neg hb255, List.cons_append,
        unescBytes.eq_4 b _ (fun _ hb _ => hb255 hb) (fun _ hb _ => hb255 hb) hb255, ih ht r]
      rfl

theorem escBytes_bytes (l : List Nat) (h : Bytes l) : Bytes (escBytes l) := by
  induction l with
  | nil => intro b hb; rw [escBytes.eq_1] at hb; simp at hb
  | cons x t ih =>
    intro b hb
    have hx : x < 256 := h x (List.mem_cons_self x t)
    have ht : Bytes t := fun y hy => h y (List.mem_cons_of_mem x hy)
    rw [escBytes.eq_2] at hb
    by_cases h255 : x = 255
    · rw [if_pos h255] at hb
      rcases List.mem_cons.1 hb with rfl | hb'
      · omega
      · rcases List.mem_cons.1 hb' with rfl | hb''
        · omega
        · exact ih ht b hb''
    · rw [if_neg h255] at hb
      rcases List.mem_cons.1 hb with rfl | hb'
      · omega
      · exact ih ht b hb'

theorem optionBind_some {α β : Type} (a : α) (f : α → Option β) :
    (some a).bind f = f a := rfl

/-- Encryption of the computable model cipher: the ciphertext records the key
(byte-stuffed), the nonce (byte-stuffed) and the plaintext. -/
def modelEnc (k iv pt : List Nat) : List Nat :=
  escBytes k ++ 255 :: 0 :: (escBytes iv ++ 255 :: 0 :: pt)

/-- Decryption of the computable model cipher: parse the recorded key and
nonce, check they equal the ones supplied (the model of the authentication-tag
check), and fail otherwise. -/
def modelDec (k iv ct : List Nat) : Option (List Nat) :=
  (unescBytes ct).bind fun p =>
    (unescBytes p.2).bind fun q =>
      if p.1 = k ∧ q.1 = iv then some q.2 else none

theorem modelDec_modelEnc (k iv pt : List Nat) (hk : Bytes k) (hiv : Bytes iv) :
    modelDec k iv (modelEnc k iv pt) = some pt := by
  simp only [modelDec, modelEnc, unescBytes_escBytes k hk, unescBytes_escBytes iv hiv,
    optionBind_some]
  simp

theorem modelDec_wrong_key (k k' iv pt : List Nat) (hk : Bytes k) (hiv : Bytes iv)
    (hne : k' ≠ k) : modelDec k' iv (modelEnc k iv pt) = none := by
  simp only [modelDec, modelEnc, unescBytes_escBytes k hk, unescBytes_escBytes iv hiv,
    optionBind_some]
  rw [if_neg (fun hcon => hne (hcon.1.symm))]

theorem modelEnc_bytes (k iv pt : List Nat) (hk : Bytes k) (hiv : Bytes iv) (hpt : Bytes pt) :
    Bytes (modelEnc k iv pt) := by
  intro b hb
  unfold modelEnc at hb
  rcases List.mem_append.1 hb with hb' | hb'
  · exact escBytes_bytes k hk b hb'
  · rcases List.mem_cons.1 hb' with rfl | hb''
    · omega
    · rcases List.mem_cons.1 hb'' with rfl | hb3
      · omega
      · rcases List.mem_append.1 hb3 with h4 | h4
        · exact escBytes_bytes iv hiv b h4
        · rcases List.mem_cons.1 h4 with rfl | h5
          · omega
          · rcases List.mem_cons.1 h5 with rfl | h6
            · omega
            · exact hpt b h6

/-- The computable ideal-cipher instance used for concrete evaluation. -/
def modelCipher : AEAD where
  enc := modelEnc
  dec := modelDec
  dec_enc := fun k iv pt hk hiv => modelDec_modelEnc k iv pt hk hiv
  dec_wrong_key := fun k k' iv pt hk hiv hne => modelDec_wrong_key k k' iv pt hk hiv hne
  enc_bytes := fun k iv pt hk hiv hpt => modelEnc_bytes k iv pt hk hiv hpt

/-! ## ChunkCipher (src/src/crypto.ts)

`encryptString` / `decryptString`.  The derived master key (the output of
`_generateKey` on 64 random bytes) is an explicit parameter `freshKey`, since
randomness and PBKDF2 live outside the embedded code.  The while loop
`while (index * chunkSize < length)` of the source runs its body exactly for
the indexes `index` with `index * 2000 < length`, that is for
`index = 0, …, ⌈length / 2000⌉ - 1`; it is embedded as a map over
`List.range ((length + 1999) / 2000)`. -/

/-- The encrypted payload: a list of base64 ciphertext chunks plus the
encoded key (interface `EncryptedString` of src/src/crypto.ts). -/
structure EncryptedString where
  ciphertext : List (List Nat)
  key : List Nat
deriving DecidableEq

/-- `masterKeyToString` of src/src/crypto.ts: base64-encode the raw key. -/
def masterKeyToString (masterKey : List Nat) : List Nat := base64Encode masterKey

/-- The nonce used for the chunk at `index`: the source writes
`iv[0] = index & 0xff` into the one-byte array `new Uint8Array(1)`, so the
nonce passed to AES-GCM is the single byte `index % 256`. -/
def chunkIV (index : Nat) : List Nat := [index % 256]

/-- `String.prototype.slice(a, b)` on code units (for `a ≤ b`). -/
def jsSlice (s : List Nat) (a b : Nat) : List Nat := (s.drop a).take (b - a)

/-- Key selection of `encryptString`: `if (existingKey)` is JavaScript
truthiness, so a missing or empty `existingKey` selects the freshly derived
key and a non-empty one is base64-decoded and used directly. -/
def selectKey (freshKey existingKey : List Nat) : List Nat :=
  if existingKey ≠ [] then base64Decode existingKey else freshKey

/-- `encryptString` of src/src/crypto.ts, parameterised by the cipher `C` and
the derived master key `freshKey` (used when no `existingKey` is supplied). -/
def encryptString (C : AEAD) (freshKey : List Nat) (plaintext : List Nat)
    (existingKey : List Nat) : EncryptedString :=
  let key := selectKey freshKey existingKey
  { ciphertext :=
      (List.range ((plaintext.length + 1999) / 2000)).map fun index =>
        base64Encode (C.enc key (chunkIV index)
          (textEncode (jsSlice plaintext (index * 2000) ((index + 1) * 2000)))),
    key := (masterKeyToString key).take 43 }

/-- The distinct failure of `decryptString`: the promise returned by
`crypto.subtle.decrypt` rejects when the authentication tag does not
verify. -/
inductive DecryptError where
  | decryptionFailed
deriving DecidableEq

/-- The loop of `decryptString`: decrypt the chunks in index order, stopping
with a failure as soon as one chunk does not authenticate. -/
def decryptChunks (C : AEAD) (aesKey : List Nat) :
    Nat → List (List Nat) → Except DecryptError (List (List Nat))
  | _, [] => Except.ok []
  | index, chunk :: rest =>
    match C.dec aesKey (chunkIV index) (base64Decode chunk) with
    | none => Except.error DecryptError.decryptionFailed
    | some plaintextChunk =>
      (decryptChunks C aesKey (index + 1) rest).map fun tail => textDecode plaintextChunk :: tail

/-- `decryptString` of src/src/crypto.ts: decode the key, decrypt every chunk
with the nonce of its index, UTF-8-decode each chunk and concatenate
(`plaintext.join("")`). -/
def decryptString (C : AEAD) (encryptedData : EncryptedString) :
    Except DecryptError (List Nat) :=
  (decryptChunks C (base64Decode encryptedData.key) 0 encryptedData.ciphertext).map List.flatten

theorem chunkIV_bytes (index : Nat) : Bytes (chunkIV index) := by
  intro b hb
  rcases List.mem_cons.1 hb with rfl | hb'
  · omega
  · simp at hb'

theorem exceptMap_ok {ε α β : Type} (f : α → β) (a : α) :
    (Except.ok a : Except ε α).map f = Except.ok (f a) := rfl

theorem decryptChunks_map_range (C : AEAD) (K : List Nat) (F : Nat → List Nat) (hK : Bytes K)
    (hF : ∀ i, Bytes (F i)) : ∀ n j : Nat,
    decryptChunks C K j
        ((List.range' j n).map fun i => base64Encode (C.enc K (chunkIV i) (F i)))
      = Except.ok ((List.range' j n).map fun i => textDecode (F i)) := by
  intro n
  induction n with
  | zero => intro j; rfl
  | succ m ih =>
    intro j
    rw [List.range'_succ]
    simp only [List.map_cons]
    have hct : Bytes (C.enc K (chunkIV j) (F j)) := C.enc_bytes K _ _ hK (chunkIV_bytes j) (hF j)
    rw [show decryptChunks C K j
          (base64Encode (C.enc K (chunkIV j) (F j))
            :: (List.range' (j + 1) m).map fun i => base64Encode (C.enc K (chunkIV i) (F i)))
        = match C.dec K (chunkIV j) (base64Decode (base64Encode (C.enc K (chunkIV j) (F j)))) with
          | none => Except.error DecryptError.decryptionFailed
          | some plaintextChunk =>
            (decryptChunks C K (j + 1)
                ((List.range' (j + 1) m).map fun i => base64Encode (C.enc K (chunkIV i) (F i)))).map
              fun tail => textDecode plaintextChunk :: tail
      from rfl]
    rw [base64Decode_base64Encode _ hct, C.dec_enc K (chunkIV j) (F j) hK (chunkIV_bytes j),
      ih (j + 1)]
    rfl

theorem flatten_chunks_take (p : List Nat) : ∀ k : Nat,
    ((List.range k).map fun i => jsSlice p (i * 2000) ((i + 1) * 2000)).flatten
      = p.take (k * 2000) := by
  intro k
  induction k with
  | zero => rfl
  | succ k ih =>
    rw [List.range_succ, List.map_append, List.flatten_append, ih]
    simp only [List.map_cons, List.map_nil, List.flatten_cons, List.flatten_nil, List.append_nil]
    unfold jsSlice
    rw [show (k + 1) * 2000 - k * 2000 = 2000 from by omega,
      show (k + 1) * 2000 = k * 2000 + 2000 from by omega, List.take_add]

theorem flatten_chunks (p : List Nat) :
    ((List.range ((p.length + 1999) / 2000)).map fun i =>
      jsSlice p (i * 2000) ((i + 1) * 2000)).flatten = p := by
  rw [flatten_chunks_take]
  apply List.take_of_length_le
  omega

theorem decode_key_field (K : List Nat) (hb : Bytes K) (hlen : K.length = 32) :
    base64Decode ((masterKeyToString K).take 43) = K := by
  unfold masterKeyToString
  have h2 : (43 : Nat) = K.length / 3 * 4 + 3 := by omega
  rw [h2]
  exact base64Decode_take_base64Encode K hb (by omega)

theorem jsSlice_sub (p : List Nat) (a b : Nat) (hp : JSString p) : JSString (jsSlice p a b) :=
  fun u hu => hp u (List.mem_of_mem_drop (List.mem_of_mem_take hu))

/-- What `decryptString` recovers from `encryptString`, for any well-typed
plaintext and any properly shaped key: the concatenation of the
encode-then-decode images of the 2000-code-unit chunks. -/
theorem decryptString_encryptString (C : AEAD) (freshKey plaintext existingKey : List Nat)
    (hlen : (selectKey freshKey existingKey).length = 32)
    (hKb : Bytes (selectKey freshKey existingKey))
    (hp : JSString plaintext) :
    decryptString C (encryptString C freshKey plaintext existingKey)
      = Except.ok (((List.range ((plaintext.length + 1999) / 2000)).map fun i =>
          textDecode (textEncode (jsSlice plaintext (i * 2000) ((i + 1) * 2000)))).flatten) := by
  unfold decryptString encryptString
  simp only
  rw [decode_key_field _ hKb hlen, List.range_eq_range']
  rw [decryptChunks_map_range C (selectKey freshKey existingKey)
    (fun i => textEncode (jsSlice plaintext (i * 2000) ((i + 1) * 2000))) hKb
    (fun i => textEncode_bytes _ (jsSlice_sub plaintext _ _ hp))
    ((plaintext.length + 1999) / 2000) 0]
  rw [exceptMap_ok, ← List.range_eq_range']

/-- Claim C1 (amended): for every plaintext whose 2000-code-unit chunks each
contain no unpaired surrogate — in particular every well-formed string in
which no supplementary character straddles a chunk boundary — decrypting all
ciphertext chunks of `encryptString` in index order and concatenating the
results yields exactly the original plaintext. -/
theorem claim_C1_roundtrip (C : AEAD) (freshKey plaintext existingKey : List Nat)
    (hlen : (selectKey freshKey existingKey).length = 32)
    (hKb : Bytes (selectKey freshKey existingKey))
    (hp : JSString plaintext)
    (hwf : ∀ i < (plaintext.length + 1999) / 2000,
      wellFormedUtf16 (jsSlice plaintext (i * 2000) ((i + 1) * 2000)) = true) :
    decryptString C (encryptString C freshKey plaintext existingKey)
      = Except.ok plaintext := by
  rw [decryptString_encryptString C freshKey plaintext existingKey hlen hKb hp]
  have e : (List.range ((plaintext.length + 1999) / 2000)).map
        (fun i => textDecode (textEncode (jsSlice plaintext (i * 2000) ((i + 1) * 2000))))
      = (List.range ((plaintext.length + 1999) / 2000)).map
        (fun i => jsSlice plaintext (i * 2000) ((i + 1) * 2000)) :=
    List.map_congr_left fun i hi =>
      textDecode_textEncode _ (jsSlice_sub plaintext _ _ hp) (hwf i (List.mem_range.1 hi))
  rw [e, flatten_chunks]

/-- Witness for C1 at the plaintext of spec scenario 7 (one chunk, containing
multi-byte characters). -/
theorem claim_C1_roundtrip_witness :
    decryptString modelCipher
        (encryptString modelCipher (List.replicate 32 0) (jsStr (r"Hello, 世界")) [])
      = Except.ok (jsStr (r"Hello, 世界")) :=
  claim_C1_roundtrip modelCipher (List.replicate 32 0) (jsStr (r"Hello, 世界")) []
    (by decide) (by decide) (by decide) (by decide)

theorem utf16Decode_cons_bmp (u : Nat) (t : List Nat) (h : u < 55296) :
    utf16Decode (u :: t) = u :: utf16Decode t := by
  cases t with
  | nil => rw [utf16Decode.eq_2, if_neg (by omega), utf16Decode.eq_1]
  | cons v t' => rw [utf16Decode.eq_3, if_neg (by omega), if_neg (by omega)]

theorem utf16Decode_replicate97 (n : Nat) (t : List Nat) :
    utf16Decode (List.replicate n 97 ++ t) = List.replicate n 97 ++ utf16Decode t := by
  induction n with
  | zero => rfl
  | succ m ih =>
    rw [List.replicate_succ, List.cons_append, utf16Decode_cons_bmp 97 _ (by omega), ih]
    rfl

theorem utf8Encode_cons (c : Nat) (t : List Nat) :
    utf8Encode (c :: t) = utf8EncodeChar c ++ utf8Encode t := rfl

theorem utf8Encode_replicate97 (n : Nat) (t : List Nat) :
    utf8Encode (List.replicate n 97 ++ t) = List.replicate n 97 ++ utf8Encode t := by
  induction n with
  | zero => rfl
  | succ m ih =>
    rw [List.replicate_succ, List.cons_append, utf8Encode_cons, ih]
    rfl

theorem utf8Decode_cons_ascii (b : Nat) (t : List Nat) (h : b < 128) :
    utf8Decode (b :: t) = b :: utf8Decode t := by
  rw [utf8Decode_cons, show utf8Step b t = (b, t) from by unfold utf8Step; rw [if_pos h]]

theorem utf8Decode_replicate97 (n : Nat) (t : List Nat) :
    utf8Decode (List.replicate n 97 ++ t) = List.replicate n 97 ++ utf8Decode t := by
  induction n with
  | zero => rfl
  | succ m ih =>
    rw [List.replicate_succ, List.cons_append, utf8Decode_cons_ascii 97 _ (by omega), ih]
    rfl

theorem utf16Encode_replicate97 (n : Nat) (t : List Nat) :
    utf16Encode (List.replicate n 97 ++ t) = List.replicate n 97 ++ utf16Encode t := by
  induction n with
  | zero => rfl
  | succ m ih =>
    rw [List.replicate_succ, List.cons_append, utf16Encode_cons, ih]
    rfl

theorem textDecode_textEncode_replicate97 (n : Nat) (t : List Nat) :
    textDecode (textEncode (List.replicate n 97 ++ t))
      = List.replicate n 97 ++ textDecode (textEncode t) := by
  unfold textDecode textEncode
  rw [utf16Decode_replicate97, utf8Encode_replicate97, utf8Decode_replicate97,
    utf16Encode_replicate97]

/-- Counterexample to claim C1 as stated: the 2001-code-unit plaintext of
1999 letters `a` followed by the single emoji U+1F600 (the surrogate pair
`0xD83D 0xDE00`) does not round-trip.  `slice` cuts between the two
surrogates, `TextEncoder` turns each lone half into U+FFFD, and decryption
returns the plaintext with the emoji replaced by two U+FFFD characters. -/
theorem claim_C1_counterexample :
    decryptString modelCipher
        (encryptString modelCipher (List.replicate 32 0)
          (List.replicate 1999 97 ++ [55357, 56832]) [])
      ≠ Except.ok (List.replicate 1999 97 ++ [55357, 56832]) := by
  have hlen : (selectKey (List.replicate 32 0) []).length = 32 := by decide
  have hKb : Bytes (selectKey (List.replicate 32 0) []) := by decide
  have hp : JSString (List.replicate 1999 97 ++ [55357, 56832]) := by
    intro u hu
    rcases List.mem_append.1 hu with h1 | h1
    · rw [List.eq_of_mem_replicate h1]; omega
    · rcases List.mem_cons.1 h1 with rfl | h2
      · omega
      · rcases List.mem_cons.1 h2 with rfl | h3
        · omega
        · simp at h3
  rw [decryptString_encryptString _ _ _ _ hlen hKb hp]
  have hplen : (List.replicate 1999 97 ++ [55357, 56832] : List Nat).length = 2001 := by
    rw [List.length_append, List.length_replicate]
    rfl
  rw [hplen, show (2001 + 1999) / 2000 = 2 from by norm_num,
    show List.range 2 = [0, 1] from by decide]
  simp only [List.map_cons, List.map_nil]
  have hsplit : (List.replicate 1999 97 ++ [55357, 56832] : List Nat)
      = (List.replicate 1999 97 ++ [55357]) ++ [56832] :=
    (List.append_assoc (List.replicate 1999 97) [55357] [56832]).symm
  have hlen2000 : (List.replicate 1999 97 ++ [55357] : List Nat).length = 2000 := by
    rw [List.length_append, List.length_replicate]
    rfl
  have hs0 : jsSlice (List.replicate 1999 97 ++ [55357, 56832]) (0 * 2000) ((0 + 1) * 2000)
      = List.replicate 1999 97 ++ [55357] := by
    unfold jsSlice
    rw [show (0 : Nat) * 2000 = 0 from by norm_num, show (0 + 1) * 2000 = 2000 from by norm_num,
      List.drop_zero, Nat.sub_zero, hsplit, show (2000 : Nat)
        = (List.replicate 1999 97 ++ [55357] : List Nat).length from hlen2000.symm,
      List.take_left]
  have hdrop : ((List.replicate 1999 97 ++ [55357]) ++ [56832] : List Nat).drop 2000
      = [56832] := by
    rw [show (2000 : Nat) = (List.replicate 1999 97 ++ [55357] : List Nat).length
      from hlen2000.symm]
    exact List.drop_left _ _
  have hs1 : jsSlice (List.replicate 1999 97 ++ [55357, 56832]) (1 * 2000) ((1 + 1) * 2000)
      = [56832] := by
    unfold jsSlice
    rw [show (1 : Nat) * 2000 = 2000 from by norm_num,
      show ((1 + 1) * 2000 - 1 * 2000 : Nat) = 2000 from by norm_num, hsplit, hdrop]
    decide
  rw [hs0, hs1, textDecode_textEncode_replicate97 1999 [55357],
    show textDecode (textEncode [55357]) = [65533] from by decide,
    show textDecode (textEncode [56832]) = [65533] from by decide]
  intro hcon
  injection hcon with hl
  rw [List.flatten_cons, List.flatten_cons, List.flatten_nil, List.append_nil,
    List.append_assoc] at hl
  have h2 := List.append_cancel_left hl
  exact absurd h2 (by decide)

/-- Claim C2: the ciphertext list of `encryptString` has exactly
⌈length / 2000⌉ entries (0 for the empty string, 3 for a 5000-character
plaintext), chunk `i` encrypting the code units from `2000·i` up to
`2000·(i+1)` exclusive. -/
theorem claim_C2_chunk_count (C : AEAD) (freshKey plaintext existingKey : List Nat) :
    (encryptString C freshKey plaintext existingKey).ciphertext.length
        = (plaintext.length + 1999) / 2000
      ∧ (encryptString C freshKey plaintext existingKey).ciphertext
        = (List.range ((plaintext.length + 1999) / 2000)).map (fun index =>
            base64Encode (C.enc (selectKey freshKey existingKey) (chunkIV index)
              (textEncode (jsSlice plaintext (index * 2000) ((index + 1) * 2000)))))
      ∧ (encryptString C freshKey [] existingKey).ciphertext.length = 0
      ∧ (encryptString C freshKey (List.replicate 5000 97) existingKey).ciphertext.length = 3 := by
  have hgen : ∀ p : List Nat, (encryptString C freshKey p existingKey).ciphertext.length
      = (p.length + 1999) / 2000 := fun p => by
    show ((List.range _).map _).length = _
    rw [List.length_map, List.length_range]
  refine ⟨hgen plaintext, rfl, ?_, ?_⟩
  · rw [hgen []]
    rfl
  · rw [hgen (List.replicate 5000 97), List.length_replicate]

/-- Claim C3: with no supplied existing key, the key field of `encryptString`
is exactly 43 characters, all in the standard base64 alphabet (no padding
retained): the 44-character base64 encoding of the 32 derived key bytes
truncated to its first 43 characters. -/
theorem claim_C3_key_shape (C : AEAD) (freshKey plaintext : List Nat)
    (hlen : freshKey.length = 32) (hb : Bytes freshKey) :
    (encryptString C freshKey plaintext []).key.length = 43
      ∧ (encryptString C freshKey plaintext []).key.all isB64Char = true
      ∧ (masterKeyToString freshKey).length = 44
      ∧ (encryptString C freshKey plaintext []).key = (masterKeyToString freshKey).take 43 := by
  have hsel : selectKey freshKey [] = freshKey := by unfold selectKey; simp
  have hklen : (masterKeyToString freshKey).length = 44 := by
    unfold masterKeyToString
    rw [base64Encode_length, hlen]
  refine ⟨?_, ?_, hklen, ?_⟩
  · show ((masterKeyToString (selectKey freshKey [])).take 43).length = 43
    rw [hsel, List.length_take, hklen]
    omega
  · show ((masterKeyToString (selectKey freshKey [])).take 43).all isB64Char = true
    rw [hsel]
    unfold masterKeyToString
    have h := base64Encode_take_alphabet freshKey (by omega)
    have h43 : freshKey.length / 3 * 4 + 3 = 43 := by omega
    rw [h43] at h
    exact h
  · show (masterKeyToString (selectKey freshKey [])).take 43 = _
    rw [hsel]

/-- Witness for C3 at a concrete 32-byte derived key. -/
theorem claim_C3_key_shape_witness :
    (encryptString modelCipher (List.replicate 32 7) (jsStr (r"hi")) []).key.length = 43
      ∧ (encryptString modelCipher (List.replicate 32 7) (jsStr (r"hi")) []).key.all isB64Char
        = true := by
  have h := claim_C3_key_shape modelCipher (List.replicate 32 7) (jsStr (r"hi"))
    (by decide) (by decide)
  exact ⟨h.1, h.2.1⟩

/-- Claim C5: in both `encryptString` and `decryptString` the nonce for the
chunk at index `i` is the single byte `i % 256`, so nonce values repeat every
256 chunks. -/
theorem claim_C5_nonce (C : AEAD) (freshKey plaintext existingKey : List Nat) (i : Nat)
    (hi : i * 2000 < plaintext.length) :
    (encryptString C freshKey plaintext existingKey).ciphertext[i]?
        = some (base64Encode (C.enc (selectKey freshKey existingKey) (chunkIV i)
            (textEncode (jsSlice plaintext (i * 2000) ((i + 1) * 2000)))))
      ∧ chunkIV i = [i % 256]
      ∧ chunkIV (i + 256) = chunkIV i
      ∧ ∀ (aesKey chunk : List Nat) (rest : List (List Nat)),
          decryptChunks C aesKey i (chunk :: rest)
            = match C.dec aesKey (chunkIV i) (base64Decode chunk) with
              | none => Except.error DecryptError.decryptionFailed
              | some plaintextChunk =>
                (decryptChunks C aesKey (i + 1) rest).map
                  fun tail => textDecode plaintextChunk :: tail := by
  refine ⟨?_, rfl, ?_, fun aesKey chunk rest => rfl⟩
  · show ((List.range _).map _)[i]? = _
    rw [List.getElem?_map,
      List.getElem?_range (show i < (plaintext.length + 1999) / 2000 from by omega)]
    rfl
  · unfold chunkIV
    congr 1
    omega

/-- Witness for C5 at chunk index 0 of a concrete plaintext. -/
theorem claim_C5_nonce_witness :
    chunkIV 0 = [0 % 256] ∧ chunkIV (0 + 256) = chunkIV 0 := by
  have h := claim_C5_nonce modelCipher (List.replicate 32 0) (jsStr (r"hi")) [] 0 (by decide)
  exact ⟨h.2.1, h.2.2.1⟩

/-- Claim C10: when a non-empty existing key is supplied, `encryptString`
consumes no randomness — its result does not depend on the freshly derived
key, so any two calls agree chunk-for-chunk and in the key field. -/
theorem claim_C10_deterministic (C : AEAD) (fresh1 fresh2 plaintext k : List Nat)
    (hk : k ≠ []) :
    encryptString C fresh1 plaintext k = encryptString C fresh2 plaintext k := by
  unfold encryptString selectKey
  rw [if_pos hk, if_pos hk]

/-- Witness for C10 at two different derived keys. -/
theorem claim_C10_deterministic_witness :
    encryptString modelCipher (List.replicate 32 0) (jsStr (r"hi")) (List.replicate 43 65)
      = encryptString modelCipher (List.replicate 32 255) (jsStr (r"hi"))
        (List.replicate 43 65) :=
  claim_C10_deterministic modelCipher (List.replicate 32 0) (List.replicate 32 255)
    (jsStr (r"hi")) (List.replicate 43 65) (by decide)

/-- Claim C4: decrypting a non-empty payload with a key string whose decoded
bytes differ from the encryption key fails on the first chunk with the
distinct `DecryptionFailed` condition (the model of the authentication-tag
rejection) — it never returns wrong plaintext and never a transport-style
result. -/
theorem claim_C4_wrong_key (C : AEAD) (freshKey plaintext existingKey wrongKey : List Nat)
    (hp : plaintext ≠ []) (hju : JSString plaintext)
    (hKb : Bytes (selectKey freshKey existingKey))
    (hne : base64Decode wrongKey ≠ selectKey freshKey existingKey) :
    decryptString C
        { ciphertext := (encryptString C freshKey plaintext existingKey).ciphertext,
          key := wrongKey }
      = Except.error DecryptError.decryptionFailed := by
  have hpos : 0 < plaintext.length := List.length_pos.2 hp
  obtain ⟨m, hm⟩ : ∃ m, (plaintext.length + 1999) / 2000 = m + 1 :=
    ⟨(plaintext.length + 1999) / 2000 - 1, by omega⟩
  unfold decryptString encryptString
  simp only
  rw [hm, List.range_eq_range', List.range'_succ, List.map_cons]
  have hct : Bytes (C.enc (selectKey freshKey existingKey) (chunkIV 0)
      (textEncode (jsSlice plaintext (0 * 2000) ((0 + 1) * 2000)))) :=
    C.enc_bytes _ _ _ hKb (chunkIV_bytes 0)
      (textEncode_bytes _ (jsSlice_sub plaintext _ _ hju))
  have hstep : decryptChunks C (base64Decode wrongKey) 0
        (base64Encode (C.enc (selectKey freshKey existingKey) (chunkIV 0)
            (textEncode (jsSlice plaintext (0 * 2000) ((0 + 1) * 2000))))
          :: (List.range' (0 + 1) m).map (fun index =>
            base64Encode (C.enc (selectKey freshKey existingKey) (chunkIV index)
              (textEncode (jsSlice plaintext (index * 2000) ((index + 1) * 2000))))))
      = (match C.dec (base64Decode wrongKey) (chunkIV 0)
            (base64Decode (base64Encode (C.enc (selectKey freshKey existingKey) (chunkIV 0)
              (textEncode (jsSlice plaintext (0 * 2000) ((0 + 1) * 2000)))))) with
        | none => Except.error DecryptError.decryptionFailed
        | some plaintextChunk =>
          (decryptChunks C (base64Decode wrongKey) (0 + 1)
              ((List.range' (0 + 1) m).map fun index =>
                base64Encode (C.enc (selectKey freshKey existingKey) (chunkIV index)
                  (textEncode (jsSlice plaintext (index * 2000) ((index + 1) * 2000)))))).map
            (fun tail => textDecode plaintextChunk :: tail)) := rfl
  rw [hstep]
  rw [base64Decode_base64Encode _ hct,
    C.dec_wrong_key (selectKey freshKey existingKey) (base64Decode wrongKey) (chunkIV 0) _
      hKb (chunkIV_bytes 0) hne]
  rfl

/-- Witness for C4: a payload encrypted under the all-zero derived key,
decrypted with the key string `Qg==` (which decodes to the single byte 66). -/
theorem claim_C4_wrong_key_witness :
    decryptString modelCipher
        { ciphertext :=
            (encryptString modelCipher (List.replicate 32 0) (jsStr (r"hi")) []).ciphertext,
          key := jsStr (r"Qg==") }
      = Except.error DecryptError.decryptionFailed :=
  claim_C4_wrong_key modelCipher (List.replicate 32 0) (jsStr (r"hi")) [] (jsStr (r"Qg=="))
    (by decide) (by decide) (by decide) (by decide)

/-- Counterexample to claim C8 as stated: supplying the 43-character key
`AAA…AB` (42 letters `A` and a final `B`, whose base64 value 1 has non-zero
low bits) does not round-trip: the key field of the result is 43 letters `A`,
not the supplied string. -/
theorem claim_C8_counterexample :
    (encryptString modelCipher [] (jsStr (r"x")) (List.replicate 42 65 ++ [66])).key
      ≠ List.replicate 42 65 ++ [66] := by decide

/-- Claim C8 (amended): reusing an existing 43-character base64 key whose
final character has a base64 value divisible by 4 — which holds for every key
the scheme itself issues, since the two low bits of the 43rd character are
dropped by the truncated encoding — yields a payload whose key field equals
the supplied key byte-for-byte. -/
theorem claim_C8_key_reuse (C : AEAD) (freshKey plaintext k : List Nat)
    (hlen : k.length = 43) (halpha : k.all isB64Char = true)
    (hlast : b64val (k.getLastD 0) % 4 = 0) :
    (encryptString C freshKey plaintext k).key = k := by
  have hne : k ≠ [] := by
    intro h
    rw [h] at hlen
    simp at hlen
  have hlast' : ∀ c, k.getLast? = some c → b64val c % 4 = 0 := by
    intro c hc
    have he : k.getLastD 0 = c := by
      rw [List.getLastD_eq_getLast?, hc]
      rfl
    rw [← he]
    exact hlast
  show (masterKeyToString (selectKey freshKey k)).take 43 = k
  unfold selectKey
  rw [if_pos hne]
  unfold masterKeyToString
  rw [base64Encode_base64Decode_canonical k halpha (by omega) hlast',
    (show (43 : Nat) = k.length from hlen.symm), List.take_left]

/-- Witness for C8 (amended) at the all-`A` 43-character key. -/
theorem claim_C8_key_reuse_witness :
    (encryptString modelCipher [] (jsStr (r"x")) (List.replicate 43 65)).key
      = List.replicate 43 65 :=
  claim_C8_key_reuse modelCipher [] (jsStr (r"x")) (List.replicate 43 65)
    (by decide) (by decide) (by decide)

/-! ## ShareLinkCodec (src/src/api.ts)

`parseExistingShareUrl` matches its input against the JavaScript regular
expression `(\w+)(#.+?|)$` and returns `{ filename: match[1],
decryptionKey: match[2].slice(1) || "", url }`, or `false` when there is no
match.  The embedding follows the JavaScript matching semantics: candidate
start positions are scanned left to right (`findMatch`); at a position the
greedy `\w+` consumes the maximal word-character run — backtracking to a
shorter run can never succeed, because group 2 must then start at a word
character while it has to begin with `#` or at the anchored end — and group 2
is either empty at the end of the string, or `#` followed by the lazy `.+?`
expanding up to `$`: at least one character, none of which may be a line
terminator, since `.` matches no line terminator. -/

/-- The character class `\w`: ASCII letters, digits and underscore. -/
def isWordChar (c : Nat) : Bool :=
  (48 ≤ c && c ≤ 57) || (65 ≤ c && c ≤ 90) || (97 ≤ c && c ≤ 122) || c == 95

/-- The line terminators that `.` does not match. -/
def isLineTerm (c : Nat) : Bool := c == 10 || c == 13 || c == 8232 || c == 8233

/-- Attempt of the regular expression at one start position: the maximal
word run must be non-empty, and what follows must be the end of the input or
a `#` with a non-empty line-terminator-free remainder; on success return
(group 1, group 2). -/
def matchTail (u : List Nat) : Option (List Nat × List Nat) :=
  if u.takeWhile isWordChar = [] then none
  else if u.dropWhile isWordChar = [] then some (u.takeWhile isWordChar, [])
  else if (u.dropWhile isWordChar).headD 0 = 35 ∧ (u.dropWhile isWordChar).tail ≠ []
      ∧ ((u.dropWhile isWordChar).tail).all (fun c => !isLineTerm c) = true then
    some (u.takeWhile isWordChar, u.dropWhile isWordChar)
  else none

/-- Left-to-right scan over the start positions, as `String.prototype.match`
does for a non-global regular expression. -/
def findMatch : List Nat → Option (List Nat × List Nat)
  | [] => none
  | c :: rest =>
    match matchTail (c :: rest) with
    | some r => some r
    | none => findMatch rest

/-- Interface `SharedUrl` of src/src/note.ts. -/
structure SharedUrl where
  filename : List Nat
  decryptionKey : List Nat
  url : List Nat
deriving DecidableEq

/-- `parseExistingShareUrl` of src/src/api.ts; the `false` result is
modelled by `none`. -/
def parseExistingShareUrl (url : List Nat) : Option SharedUrl :=
  match findMatch url with
  | some (w, g2) => some { filename := w, decryptionKey := g2.drop 1, url := url }
  | none => none

/-- Counterexample to claim C6 as stated: the regular expression matches the
trailing word run of the string `not a url`, so the parser returns filename
`url` with an empty decryption key instead of a none/false result. -/
theorem claim_C6_counterexample :
    parseExistingShareUrl (jsStr (r"not a url"))
      = some { filename := jsStr (r"url"), decryptionKey := [], url := jsStr (r"not a url") } := by
  decide

/-- Claim C6 (amended): `parseExistingShareUrl` is total (it never throws —
every input returns a value), and returns a none/false result only for inputs
in which no trailing word-run-plus-optional-fragment matches, such as
`!!!`; for `not a url` it does match, returning filename `url` and an empty
decryption key. -/
theorem claim_C6_parse_none :
    parseExistingShareUrl (jsStr (r"!!!")) = none
      ∧ parseExistingShareUrl (jsStr (r"abc#")) = none
      ∧ parseExistingShareUrl (jsStr (r"not a url"))
        = some { filename := jsStr (r"url"), decryptionKey := [], url := jsStr (r"not a url") } := by
  decide

theorem takeWhile_all_eq {p : Nat → Bool} (l : List Nat) (h : ∀ c ∈ l, p c = true) :
    l.takeWhile p = l := by
  induction l with
  | nil => rfl
  | cons a t ih =>
    rw [List.takeWhile_cons_of_pos (h a (List.mem_cons_self a t)),
      ih fun c hc => h c (List.mem_cons_of_mem a hc)]

theorem dropWhile_all_eq {p : Nat → Bool} (l : List Nat) (h : ∀ c ∈ l, p c = true) :
    l.dropWhile p = [] := by
  induction l with
  | nil => rfl
  | cons a t ih =>
    rw [List.dropWhile_cons_of_pos (h a (List.mem_cons_self a t)),
      ih fun c hc => h c (List.mem_cons_of_mem a hc)]

theorem takeWhile_append_all {p : Nat → Bool} (w t : List Nat) (h : ∀ c ∈ w, p c = true) :
    (w ++ t).takeWhile p = w ++ t.takeWhile p := by
  induction w with
  | nil => rfl
  | cons a w' ih =>
    rw [List.cons_append, List.takeWhile_cons_of_pos (h a (List.mem_cons_self a w')),
      ih fun c hc => h c (List.mem_cons_of_mem a hc), List.cons_append]

theorem dropWhile_append_all {p : Nat → Bool} (w t : List Nat) (h : ∀ c ∈ w, p c = true) :
    (w ++ t).dropWhile p = t.dropWhile p := by
  induction w with
  | nil => rfl
  | cons a w' ih =>
    rw [List.cons_append, List.dropWhile_cons_of_pos (h a (List.mem_cons_self a w')),
      ih fun c hc => h c (List.mem_cons_of_mem a hc)]

theorem dropWhile_append_of_exists {p : Nat → Bool} (l u : List Nat)
    (h : ∃ c ∈ l, p c = false) : (l ++ u).dropWhile p = l.dropWhile p ++ u := by
  induction l with
  | nil => obtain ⟨c, hc, -⟩ := h; simp at hc
  | cons a t ih =>
    by_cases ha : p a = true
    · have h' : ∃ c ∈ t, p c = false := by
        obtain ⟨c, hc, hcf⟩ := h
        rcases List.mem_cons.1 hc with rfl | hct
        · rw [ha] at hcf; simp at hcf
        · exact ⟨c, hct, hcf⟩
      rw [List.cons_append, List.dropWhile_cons_of_pos ha, List.dropWhile_cons_of_pos ha,
        ih h']
    · have ha' : p a = false := by revert ha; cases p a <;> simp
      rw [List.cons_append, List.dropWhile_cons_of_neg (by rw [ha']; simp),
        List.dropWhile_cons_of_neg (by rw [ha']; simp), List.cons_append]

theorem dropWhile_first_not {p : Nat → Bool} (l : List Nat) (c : Nat) (rest : List Nat)
    (h : l.dropWhile p = c :: rest) : p c = false := by
  induction l with
  | nil => simp at h
  | cons a t ih =>
    by_cases ha : p a = true
    · rw [List.dropWhile_cons_of_pos ha] at h
      exact ih h
    · have ha' : p a = false := by revert ha; cases p a <;> simp
      rw [List.dropWhile_cons_of_neg (by rw [ha']; simp)] at h
      injection h with h1 h2
      rw [← h1]
      exact ha'

theorem dropWhile_first_mem {p : Nat → Bool} (l : List Nat) (c : Nat) (rest : List Nat)
    (h : l.dropWhile p = c :: rest) : c ∈ l := by
  induction l with
  | nil => simp at h
  | cons a t ih =>
    by_cases ha : p a = true
    · rw [List.dropWhile_cons_of_pos ha] at h
      exact List.mem_cons_of_mem a (ih h)
    · have ha' : p a = false := by revert ha; cases p a <;> simp
      rw [List.dropWhile_cons_of_neg (by rw [ha']; simp)] at h
      injection h with h1 h2
      rw [h1]
      exact List.mem_cons_self c t

theorem dropWhile_ne_nil_of_exists {p : Nat → Bool} (l : List Nat)
    (h : ∃ c ∈ l, p c = false) : l.dropWhile p ≠ [] := by
  induction l with
  | nil => obtain ⟨c, hc, -⟩ := h; simp at hc
  | cons a t ih =>
    by_cases ha : p a = true
    · have h' : ∃ c ∈ t, p c = false := by
        obtain ⟨c, hc, hcf⟩ := h
        rcases List.mem_cons.1 hc with rfl | hct
        · rw [ha] at hcf; simp at hcf
        · exact ⟨c, hct, hcf⟩
      rw [List.dropWhile_cons_of_pos ha]
      exact ih h'
    · have ha' : p a = false := by revert ha; cases p a <;> simp
      rw [List.dropWhile_cons_of_neg (by rw [ha']; simp)]
      exact List.cons_ne_nil a t

/-- No start position inside a segment that contains a non-word character
and no `#` can begin a regular-expression match. -/
theorem matchTail_append_none (pre u : List Nat)
    (hex : ∃ c ∈ pre, isWordChar c = false) (hhash : ∀ c ∈ pre, c ≠ 35) :
    matchTail (pre ++ u) = none := by
  rcases hshape : pre.dropWhile isWordChar with _ | ⟨e, rest'⟩
  · exact absurd hshape (dropWhile_ne_nil_of_exists pre hex)
  · have hew : isWordChar e = false := dropWhile_first_not pre e rest' hshape
    have he35 : e ≠ 35 := hhash e (dropWhile_first_mem pre e rest' hshape)
    unfold matchTail
    rw [dropWhile_append_of_exists pre u hex, hshape, List.cons_append]
    by_cases h1 : (pre ++ u).takeWhile isWordChar = []
    · rw [if_pos h1]
    · rw [if_neg h1, if_neg (List.cons_ne_nil e (rest' ++ u)),
        if_neg (fun hcon => he35 (by simpa using hcon.1))]

/-- Scanning can skip a leading segment that ends in a non-word character
and contains no `#`. -/
theorem findMatch_append_none (pre u : List Nat)
    (hlast : ∀ c, pre.getLast? = some c → isWordChar c = false)
    (hhash : ∀ c ∈ pre, c ≠ 35) : findMatch (pre ++ u) = findMatch u := by
  induction pre with
  | nil => rfl
  | cons a t ih =>
    have hne : (a :: t) ≠ [] := List.cons_ne_nil a t
    have hlastmem : (a :: t).getLast hne ∈ a :: t := List.getLast_mem hne
    have hlastval : isWordChar ((a :: t).getLast hne) = false :=
      hlast _ (List.getLast?_eq_getLast (a :: t) hne)
    have hex : ∃ c ∈ a :: t, isWordChar c = false := ⟨_, hlastmem, hlastval⟩
    rw [List.cons_append]
    rw [show findMatch (a :: (t ++ u))
        = match matchTail (a :: (t ++ u)) with
          | some r => some r
          | none => findMatch (t ++ u)
      from rfl]
    rw [show matchTail (a :: (t ++ u)) = none from matchTail_append_none (a :: t) u hex hhash]
    exact ih
      (fun c hc => hlast c (by
        cases t with
        | nil => simp at hc
        | cons b t' => rw [List.getLast?_cons_cons]; exact hc))
      (fun c hc => hhash c (List.mem_cons_of_mem a hc))

theorem matchTail_word_nofrag (w : List Nat) (hw : ∀ c ∈ w, isWordChar c = true)
    (hne : w ≠ []) : matchTail w = some (w, []) := by
  unfold matchTail
  rw [takeWhile_all_eq w hw, dropWhile_all_eq w hw, if_neg hne, if_pos rfl]

theorem matchTail_word_frag (w k : List Nat) (hw : ∀ c ∈ w, isWordChar c = true)
    (hne : w ≠ []) (hk : k ≠ []) (hterm : k.all (fun c => !isLineTerm c) = true) :
    matchTail (w ++ 35 :: k) = some (w, 35 :: k) := by
  have htake : (w ++ 35 :: k).takeWhile isWordChar = w := by
    rw [takeWhile_append_all w (35 :: k) hw,
      List.takeWhile_cons_of_neg (by decide : ¬isWordChar 35 = true), List.append_nil]
  have hdrop : (w ++ 35 :: k).dropWhile isWordChar = 35 :: k := by
    rw [dropWhile_append_all w (35 :: k) hw,
      List.dropWhile_cons_of_neg (by decide : ¬isWordChar 35 = true)]
  unfold matchTail
  rw [htake, hdrop, if_neg hne, if_neg (List.cons_ne_nil 35 k),
    if_pos ⟨rfl, by simpa using hk, by simpa using hterm⟩]

/-- Claim C7: a bare storage link — any prefix that ends in a non-word
character and contains no `#`, followed by a non-empty final segment of word
characters, optionally followed by a `#<key>` fragment whose key is non-empty
and free of line terminators — parses to that final segment as filename and
the fragment content as decryptionKey, the empty string when no fragment is
present. -/
theorem claim_C7_bare_link (pre w frag k : List Nat)
    (hw : w ≠ []) (hword : ∀ c ∈ w, isWordChar c = true)
    (hlast : isWordChar (pre.getLastD 35) = false)
    (hhash : ∀ c ∈ pre, c ≠ 35)
    (hfrag : (frag = [] ∧ k = [])
      ∨ (frag = 35 :: k ∧ k ≠ [] ∧ k.all (fun c => !isLineTerm c) = true)) :
    parseExistingShareUrl (pre ++ w ++ frag)
      = some { filename := w, decryptionKey := k, url := pre ++ w ++ frag } := by
  have hlast' : ∀ c, pre.getLast? = some c → isWordChar c = false := by
    intro c hc
    have he : pre.getLastD 35 = c := by
      rw [List.getLastD_eq_getLast?, hc]
      rfl
    rw [← he]
    exact hlast
  unfold parseExistingShareUrl
  rw [List.append_assoc, findMatch_append_none pre (w ++ frag) hlast' hhash]
  rcases hfrag with ⟨rfl, rfl⟩ | ⟨rfl, hk, hterm⟩
  · rw [List.append_nil]
    obtain ⟨c0, w', rfl⟩ := List.exists_cons_of_ne_nil hw
    rw [show findMatch (c0 :: w')
        = match matchTail (c0 :: w') with
          | some r => some r
          | none => findMatch w'
      from rfl]
    rw [matchTail_word_nofrag (c0 :: w') hword hw]
    rfl
  · obtain ⟨c0, w', rfl⟩ := List.exists_cons_of_ne_nil hw
    rw [List.cons_append]
    rw [show findMatch (c0 :: (w' ++ 35 :: k))
        = match matchTail (c0 :: (w' ++ 35 :: k)) with
          | some r => some r
          | none => findMatch (w' ++ 35 :: k)
      from rfl]
    rw [show matchTail (c0 :: (w' ++ 35 :: k)) = some (c0 :: w', 35 :: k)
      from matchTail_word_frag (c0 :: w') k hword hw hk hterm]
    rfl

/-- Witness for C7 at a pastebin-style link with a key fragment. -/
theorem claim_C7_bare_link_witness :
    parseExistingShareUrl
        (jsStr (r"https://pastebin.com/raw/") ++ jsStr (r"AbC123") ++ jsStr (r"#SecretKey11"))
      = some { filename := jsStr (r"AbC123"), decryptionKey := jsStr (r"SecretKey11"),
               url := (jsStr (r"https://pastebin.com/raw/") ++ jsStr (r"AbC123")
                 ++ jsStr (r"#SecretKey11")) } :=
  claim_C7_bare_link (jsStr (r"https://pastebin.com/raw/")) (jsStr (r"AbC123"))
    (jsStr (r"#SecretKey11")) (jsStr (r"SecretKey11")) (by decide) (by decide) (by decide)
    (by decide) (Or.inr ⟨by decide, by decide, by decide⟩)

/-! ## ShareWorkflow metadata effect (src/src/note.ts, pastebin branch)

The metadata-affecting steps of `Note.share` with `usePastebin` enabled
(src/src/note.ts lines 100-172), in program order:

1. read the note and, unless sharing unencrypted, `await encryptString(...)`
   — a rejection here propagates out of `share()` before any frontmatter
   write;
2. `processFrontMatter`: `if ((frontmatter["send_link"] = true)) { delete
   frontmatter["send_link"] }` — the condition is an assignment of `true`, so
   the guard always holds and the `send_link` field is deleted
   unconditionally, before the upload;
3. `requestUrl({url: "https://pastebin.com/api/api_post.php", ...})`:
   `.then` writes the new obsidian url into `send_link` (again under the
   always-true assignment guard); `.catch` only logs, leaving the field
   deleted.

The external outcomes are parameters: `encResult` is the outcome of the
encryption step (`none` = the promise rejected), `backendResult` the outcome
of the pastebin request (`none` = rejected, `some url` = the obsidian url
assembled from the response).  Only the `send_link` frontmatter field is
modelled; the DOM, clipboard and status-message work carries no metadata
effect. -/

/-- The modelled frontmatter: the document's `send_link` field, absent or
holding a link string. -/
structure FrontMatter where
  send_link : Option (List Nat)
deriving DecidableEq

/-- The `send_link` metadata effect of the pastebin branch of `Note.share`. -/
def shareMetaEffect (encResult : Option EncryptedString)
    (backendResult : Option (List Nat)) (fm : FrontMatter) : FrontMatter :=
  match encResult with
  | none => fm
  | some _ =>
    let fmAfterDelete : FrontMatter := { fm with send_link := none }
    match backendResult with
    | none => fmAfterDelete
    | some obsidianUrl => { fmAfterDelete with send_link := some obsidianUrl }

/-- Claim C9 evaluated at the failing input: a document whose frontmatter
holds a previous share link, whose encryption succeeds and whose pastebin
upload fails, ends with its `send_link` field deleted — the previously stored
link is removed before the backend call succeeds, contradicting
write-after-success. -/
theorem claim_C9_metadata_effect :
    shareMetaEffect (some { ciphertext := [], key := [] }) none
        { send_link := some (jsStr (r"obsidian://send-note?sendurl=old")) }
      = { send_link := none }
      ∧ ({ send_link := none } : FrontMatter)
        ≠ { send_link := some (jsStr (r"obsidian://send-note?sendurl=old")) } := by
  constructor
  · rfl
  · decide
